import Mathlib

/-! Verification development for the learning core in `models.py` of a Dreamer-family
    model-based RL agent: the numeric transforms `symlog`/`symexp`, the `RewardEMA`
    running quantile-range normalizer, the `WorldModel` preprocessing / loss assembly /
    `video_pred` diagnostic, and the `ImagBehavior` actor-critic (imagination rollout,
    λ-return target, loss weights, slow-target maintenance).

    Modelling conventions:
    * Tensors manipulated purely elementwise (or by shape-only ops such as `unsqueeze`,
      `reshape`, slicing of singleton axes) are represented by a representative scalar;
      tensors whose time axis matters are `List`s indexed by time; batch axes are
      abstracted away since every claimed property is uniform across the batch.
    * `detach` is the identity on values; where a claim speaks about gradients we use a
      forward-mode dual-number representation `(value, tangent)` in which `detach`
      zeroes the tangent.
    * Numeric definitions are kept polymorphic over an ordered field wherever the
      source code is exact field arithmetic, so that they are executable over `ℚ`;
      definitions that use `exp`/`log`/`tanh` are over `ℝ`.
    * Python exceptions are modelled with `Except PyError`. -/

namespace DreamerV3

/-- Model of the Python exceptions relevant here: `TypeError` (raised e.g. when calling
a non-callable object) and `NameError`/`UnboundLocalError` (referencing an unassigned
local variable). -/
inductive PyError where
  | typeError (msg : String)
  | nameError (msg : String)
deriving DecidableEq

/-- The error actually produced by the statement `raise NotImplemented(msg)` that
appears throughout `models.py`: `NotImplemented` is a plain constant, not an exception
class, so calling it raises `TypeError` with a fixed interpreter message (the formatted
`msg` argument is evaluated and then discarded); no configuration text reaches the
raised error. -/
def notImplementedCallError : PyError :=
  PyError.typeError "NotImplementedType object is not callable"

/-- Python truthiness of an optional integer argument (`if repeats:`): `None` and `0`
are falsy, every other value truthy. -/
def pyTruthy : Option Int → Bool
  | none => false
  | some n => n != 0

/-- `torch.sign` on a real scalar. -/
noncomputable def sgn (x : ℝ) : ℝ := if 0 < x then 1 else if x < 0 then -1 else 0

/-- `symlog` from `models.py` line 13: `torch.sign(x) * torch.log(torch.abs(x) + 1.0)`. -/
noncomputable def symlog (x : ℝ) : ℝ := sgn x * Real.log (|x| + 1)

/-- `symexp` from `models.py` line 17: `torch.sign(x) * (torch.exp(torch.abs(x)) - 1.0)`. -/
noncomputable def symexp (x : ℝ) : ℝ := sgn x * (Real.exp |x| - 1)

/-- Configuration slice of `WorldModel` used by `preprocess`, `video_pred` and the
`_train` loss assembly. -/
structure WMConfig where
  obs_trans : String
  reward_trans : String
  discount : ℝ
  pred_discount : Bool
  reward_scale : ℝ
  discount_scale : ℝ

/-- A raw observation batch entering `WorldModel.preprocess`, with each tensor
represented by a scalar (all transforms are elementwise; `unsqueeze(-1)`,
`torch.Tensor(...)` and `.to(device)` are representation-only and dropped). -/
structure RawObs where
  image : ℝ
  reward : ℝ
  discount : Option ℝ

/-- The preprocessed batch returned by `WorldModel.preprocess`. -/
structure PreObs where
  image : ℝ
  reward : ℝ
  discount : Option ℝ

/-- `WorldModel.preprocess` (models.py lines 197-222). Note that the two
`raise NotImplemented(...)` fallthrough branches both interpolate
`self._config.reward_trans` into a message that is then discarded: since
`NotImplemented` is not callable, what is actually raised in both branches is
`notImplementedCallError`. -/
noncomputable def WorldModel.preprocess (cfg : WMConfig) (obs : RawObs) :
    Except PyError PreObs := do
  let image ←
    if cfg.obs_trans = "normalize" then Except.ok (obs.image / 255 - 0.5)
    else if cfg.obs_trans = "identity" then Except.ok obs.image
    else if cfg.obs_trans = "symlog" then Except.ok (symlog obs.image)
    else Except.error notImplementedCallError
  let reward ←
    if cfg.reward_trans = "tanh" then Except.ok (Real.tanh obs.reward)
    else if cfg.reward_trans = "identity" then Except.ok obs.reward
    else if cfg.reward_trans = "symlog" then Except.ok (symlog obs.reward)
    else Except.error notImplementedCallError
  Except.ok
    { image := image
      reward := reward
      discount := obs.discount.map (fun d => d * cfg.discount) }

/-- `WorldModel.video_pred` (models.py lines 224-245), restricted to the data path that
decides its success or failure. `model0` abstracts `torch.cat([recon[:, :5], openl], 1)`
(a representative element of the decoded reconstruction / open-loop rollout). In the
source, the local variable `truth` is assigned only in the "normalize" and "symlog"
branches; in any other branch the final expression `(model - truth + 1) / 2` references
the unassigned local, which raises `UnboundLocalError` (a `NameError`). -/
noncomputable def WorldModel.video_pred (cfg : WMConfig) (obs : RawObs) (model0 : ℝ) :
    Except PyError (ℝ × ℝ × ℝ) := do
  let data ← WorldModel.preprocess cfg obs
  let truthModel : Option (ℝ × ℝ) :=
    if cfg.obs_trans = "normalize" then some (data.image + 0.5, model0 + 0.5)
    else if cfg.obs_trans = "symlog" then
      some (symexp data.image / 255, symexp model0 / 255)
    else none
  match truthModel with
  | none =>
    Except.error (PyError.nameError "local variable truth referenced before assignment")
  | some (truth, model) => Except.ok (truth, model, (model - truth + 1) / 2)

/-- The keys of `WorldModel.heads` in insertion order (models.py lines 81-127):
"image" and "reward" always, "discount" exactly when `config.pred_discount`. -/
def WorldModel.headNames (cfg : WMConfig) : List String :=
  ["image", "reward"] ++ if cfg.pred_discount then ["discount"] else []

/-- `self._scales` (models.py line 140):
`dict(reward=config.reward_scale, discount=config.discount_scale)`, read with
`.get(name, 1.0)`. -/
def WorldModel.scalesGet (cfg : WMConfig) (name : String) : Option ℝ :=
  if name = "reward" then some cfg.reward_scale
  else if name = "discount" then some cfg.discount_scale
  else none

/-- The total world-model training loss assembled in `WorldModel._train` (models.py
lines 159-171): per head, `losses[name] = -torch.mean(like) * self._scales.get(name, 1.0)`
where `meanLike name` abstracts `torch.mean(pred.log_prob(data[name]))` (the
per-head detach for heads outside `grad_heads` does not change the value); then
`model_loss = sum(losses.values()) + kl_loss`. -/
def WorldModel.modelLoss (cfg : WMConfig) (meanLike : String → ℝ) (klLoss : ℝ) : ℝ :=
  ((WorldModel.headNames cfg).map
    (fun name => -(meanLike name) * ((WorldModel.scalesGet cfg name).getD 1))).sum
    + klLoss

/-- The latent-dynamics interface consumed by `ImagBehavior._imagine`: the single-step
prior transition `img_step` (with the realized stochastic draw folded in, covering both
`sample=True` and `sample=False`) and the feature projection `get_feat`. -/
structure Dyn (σ φ α : Type) where
  img_step : σ → α → σ
  get_feat : σ → φ

/-- Modelled from the spec: `tools.static_scan` is repository code not included under
`src/`. The spec describes it as a "generic fixed-length recurrent scan", implemented
as "an explicit fixed-length loop accumulating into a preallocated sequence container":
the step function is applied once per input element (the inputs `torch.arange(horizon)`
only fix the length — `_imagine`'s step ignores the element), threading the carry and
recording each successive carry. -/
def static_scan {γ : Type} (f : γ → γ) : ℕ → γ → List γ
  | 0, _ => []
  | n + 1, init => f init :: static_scan f n (f init)

/-- `ImagBehavior._imagine` (models.py lines 404-428). `start` is the already-flattened
batch×time starting state (`flatten` is a shape-only reshape); `policySample feat` is
the realized draw of `policy(inp).sample()` (the `detach` for `stop_grad_actor` is the
identity on values); `policyMode` and `zeroFeat` build the initial carry
`(start, 0 * get_feat(start), policy(feat).mode())`, whose feature/action entries are
never emitted. Both `if repeats:` guards raise; Python truthiness means `repeats = 0`
takes neither. -/
def ImagBehavior.imagine {σ φ α : Type} (dyn : Dyn σ φ α) (policySample : φ → α)
    (policyMode : φ → α) (zeroFeat : φ) (start : σ) (horizon : ℕ)
    (repeats : Option Int) : Except PyError (List φ × List σ × List α) :=
  if pyTruthy repeats then Except.error notImplementedCallError
  else
    let step : σ × φ × α → σ × φ × α := fun prev =>
      let state := prev.1
      let feat := dyn.get_feat state
      let action := policySample feat
      (dyn.img_step state action, feat, action)
    let init : σ × φ × α := (start, zeroFeat, policyMode zeroFeat)
    let outs := static_scan step horizon init
    let feats := outs.map (fun p => p.2.1)
    let actions := outs.map (fun p => p.2.2)
    let states := start :: (outs.map (fun p => p.1)).dropLast
    Except.ok (feats, states, actions)

/-- The latent state reached after `t` prior-dynamics steps from `start`, each step
taking the action sampled at the current feature (the intended trajectory that
`_imagine` records). -/
def ImagBehavior.rolloutState {σ φ α : Type} (dyn : Dyn σ φ α) (policySample : φ → α)
    (start : σ) : ℕ → σ
  | 0 => start
  | t + 1 =>
    let s := ImagBehavior.rolloutState dyn policySample start t
    dyn.img_step s (policySample (dyn.get_feat s))

/-- Backward recursion for `lambda_return` over the zipped per-timestep inputs
`(reward t, discount t, value (t+1))`, with `return[horizon] = bootstrap`: each step
prepends `reward[t] + discount[t] * ((1-λ) * value[t+1] + λ * return[t+1])`. -/
def lambdaReturnAux {α : Type} [CommRing α] (lam bootstrap : α) :
    List (α × α × α) → List α
  | [] => []
  | (r, d, nv) :: rest =>
    let tail := lambdaReturnAux lam bootstrap rest
    (r + d * ((1 - lam) * nv + lam * tail.headD bootstrap)) :: tail

/-- Modelled from the spec: `tools.lambda_return` is repository code not included under
`src/`. The spec specifies it as the backward recursion
`return[t] = reward[t] + discount[t] * ((1-λ)*value[t+1] + λ*return[t+1])` with
`return[horizon] = bootstrap`, processed from the last timestep to the first and
producing one return per input timestep; `value[t+1]` at the final timestep is the
bootstrap. -/
def lambda_return {α : Type} [CommRing α] (reward value pcont : List α)
    (bootstrap lam : α) : List α :=
  lambdaReturnAux lam bootstrap (reward.zip (pcont.zip (value.drop 1 ++ [bootstrap])))

/-- `torch.cumprod` along the time axis, continuing from accumulator `acc`. -/
def cumprodFrom {β : Type} [Mul β] (acc : β) : List β → List β
  | [] => []
  | y :: ys => (acc * y) :: cumprodFrom (acc * y) ys

/-- `torch.cumprod` along the time axis: the running products of the list. -/
def cumprod {β : Type} [Mul β] : List β → List β
  | [] => []
  | x :: xs => x :: cumprodFrom x xs

/-- The loss weights of `ImagBehavior._compute_target` (models.py lines 457-459):
`torch.cumprod(torch.cat([torch.ones_like(discount[:1]), discount[:-1]], 0), 0)`;
the trailing `.detach()` is the identity on values (see `imag_weights_detached` for
the tangent-level statement). -/
def imag_weights {β : Type} [Mul β] [One β] (discount : List β) : List β :=
  cumprod ((discount.take 1).map (fun _ => (1 : β)) ++ discount.dropLast)

/-- `ImagBehavior._compute_target` (models.py lines 430-460) as a function of the
per-timestep sequences entering lines 449-459: `reward` after any future-entropy
augmentation, `value` from the slow or live critic after any symexp, `discount` from
the discount head's mean or `config.discount * ones` (representative scalars per
timestep). Returns the λ-return target over `reward[:-1]`, `value[:-1]`, `discount[:-1]`
with `bootstrap = value[-1]`, paired with the cumulative-product loss weights. -/
def ImagBehavior.compute_target {α : Type} [CommRing α]
    (reward value discount : List α) (lam : α) : List α × List α :=
  (lambda_return reward.dropLast value.dropLast discount.dropLast
      (value.getLastD 0) lam,
    imag_weights discount)

/-- Forward-mode dual numbers `(value, tangent)`: the shallow embedding of
autograd-tracked scalars used where a claim speaks about gradient flow. `detach`
zeroes the tangent. -/
structure Dual (α : Type) where
  val : α
  tan : α
deriving DecidableEq

instance {α : Type} [Mul α] [Add α] : Mul (Dual α) :=
  ⟨fun a b => ⟨a.val * b.val, a.val * b.tan + a.tan * b.val⟩⟩

instance {α : Type} [One α] [Zero α] : One (Dual α) :=
  ⟨⟨1, 0⟩⟩

/-- `tensor.detach()` on a dual number: same value, zero tangent. -/
def Dual.detach {α : Type} [Zero α] (a : Dual α) : Dual α := ⟨a.val, 0⟩

/-- Models.py lines 457-459 including the final `.detach()`, over dual numbers. -/
def imag_weights_detached {α : Type} [CommRing α] (discount : List (Dual α)) :
    List (Dual α) :=
  (imag_weights discount).map Dual.detach

/-- Configuration slice for `_update_slow_target`: `enabled` is
`config.slow_value_target or config.slow_actor_target` (the same disjunction that
creates `self._slow_value = copy.deepcopy(self.value)` and `self._updates = 0` in
`__init__`, models.py lines 295-297). -/
structure SlowCfg (α : Type) where
  enabled : Bool
  slow_target_update : ℕ
  slow_target_fraction : α

/-- Persistent state of the slow-target mechanism: the call counter `self._updates`
and the slow critic parameters `self._slow_value` (a flat list of scalars). -/
structure SlowState (α : Type) where
  updates : ℕ
  slow : List α
deriving DecidableEq

/-- `ImagBehavior._update_slow_target` (models.py lines 503-509): when enabled, on the
calls where the pre-increment counter is a multiple of `slow_target_update`, every slow
parameter is reassigned `d.data = mix * s.data + (1 - mix) * d.data` (live `s`, slow
`d`); the counter is incremented afterwards on every enabled call. When disabled the
call is a no-op. -/
def ImagBehavior.update_slow_target {α : Type} [CommRing α] (cfg : SlowCfg α)
    (live : List α) (st : SlowState α) : SlowState α :=
  if cfg.enabled then
    { updates := st.updates + 1
      slow :=
        if st.updates % cfg.slow_target_update = 0 then
          (live.zip st.slow).map
            (fun p =>
              cfg.slow_target_fraction * p.1 + (1 - cfg.slow_target_fraction) * p.2)
        else st.slow }
  else st

/-- `k` successive calls of `_update_slow_target`, the `i`-th call (0-based) observing
live critic parameters `live i`. -/
def ImagBehavior.run_slow_updates {α : Type} [CommRing α] (cfg : SlowCfg α)
    (live : ℕ → List α) : ℕ → SlowState α → SlowState α
  | 0, st => st
  | k + 1, st =>
    ImagBehavior.update_slow_target cfg (live k)
      (ImagBehavior.run_slow_updates cfg live k st)

/-- `torch.quantile(input, q)` with the default linear interpolation on the flattened
input: with `s` the ascending sort of the input and `pos = q * (n - 1)`, interpolate
between `s[⌊pos⌋]` and the next element (clamped to the last). -/
def torchQuantile {α : Type} [LinearOrderedField α] [FloorRing α]
    (l : List α) (q : α) : α :=
  let s := l.insertionSort (fun a b => a ≤ b)
  let pos := q * ((s.length : α) - 1)
  let i := (⌊pos⌋).toNat
  let lo := s.getD i 0
  let hi := s.getD (i + 1) lo
  lo + (pos - (i : α)) * (hi - lo)

/-- The per-call quantile spread in `RewardEMA.__call__` (models.py lines 31-33):
`x_quantile[1] - x_quantile[0]` for `self.range = [0.05, 0.95]` on the flattened
detached input. -/
def rewardEMASpread {α : Type} [LinearOrderedField α] [FloorRing α]
    (x : List α) : α :=
  torchQuantile x (95 / 100) - torchQuantile x (5 / 100)

/-- The scale update in `RewardEMA.__call__` (models.py line 34):
`new_scale = self.alpha * scale + (1 - self.alpha) * self.scale` with `scale` the
quantile spread of the current input. -/
def rewardEMAUpdate {α : Type} [LinearOrderedField α] [FloorRing α]
    (alpha scale : α) (x : List α) : α :=
  alpha * rewardEMASpread x + (1 - alpha) * scale

/-- `RewardEMA.__call__` (models.py lines 30-36): update the persistent scale, then
return it together with `x / torch.clip(self.scale, min=1.0)` computed elementwise
with the post-update scale. -/
def rewardEMACall {α : Type} [LinearOrderedField α] [FloorRing α]
    (alpha scale : α) (x : List α) : α × List α :=
  let newScale := rewardEMAUpdate alpha scale x
  (newScale, x.map (fun v => v / max newScale 1))

/-- The persistent `self.scale` after `k` calls starting from the zero initialization
(models.py line 26), the `i`-th call (0-based) receiving input `xs i`. -/
def rewardEMAScaleAfter {α : Type} [LinearOrderedField α] [FloorRing α]
    (alpha : α) (xs : ℕ → List α) : ℕ → α
  | 0 => 0
  | k + 1 => rewardEMAUpdate alpha (rewardEMAScaleAfter alpha xs k) (xs k)

theorem sgn_of_pos {x : ℝ} (h : 0 < x) : sgn x = 1 := by
  simp [sgn, h]

theorem sgn_zero : sgn 0 = 0 := by
  simp [sgn]

theorem sgn_neg_eq (x : ℝ) : sgn (-x) = -sgn x := by
  unfold sgn
  rcases lt_trichotomy x 0 with h | h | h
  · simp [h, not_lt.mpr h.le, neg_pos.mpr h]
  · simp [h]
  · simp [h, not_lt.mpr h.le, neg_lt_zero.mpr h, not_lt.mpr (neg_nonpos_of_nonneg h.le)]

theorem symlog_neg_eq (x : ℝ) : symlog (-x) = -symlog x := by
  unfold symlog
  rw [abs_neg, sgn_neg_eq, neg_mul]

theorem symexp_neg_eq (x : ℝ) : symexp (-x) = -symexp x := by
  unfold symexp
  rw [abs_neg, sgn_neg_eq, neg_mul]

theorem symlog_zero : symlog 0 = 0 := by
  simp [symlog, sgn_zero]

theorem symexp_zero : symexp 0 = 0 := by
  simp [symexp, sgn_zero]

theorem symexp_of_pos {x : ℝ} (h : 0 < x) : symexp x = Real.exp x - 1 := by
  rw [symexp, sgn_of_pos h, abs_of_pos h, one_mul]

theorem symlog_of_pos {x : ℝ} (h : 0 < x) : symlog x = Real.log (x + 1) := by
  rw [symlog, sgn_of_pos h, abs_of_pos h, one_mul]

theorem symexp_pos_of_pos {x : ℝ} (h : 0 < x) : 0 < symexp x := by
  rw [symexp_of_pos h, sub_pos]
  exact Real.one_lt_exp_iff.mpr h

theorem symlog_pos_of_pos {x : ℝ} (h : 0 < x) : 0 < symlog x := by
  rw [symlog_of_pos h]
  exact Real.log_pos (by linarith)

theorem symlog_symexp_of_pos {x : ℝ} (h : 0 < x) : symlog (symexp x) = x := by
  rw [symlog_of_pos (symexp_pos_of_pos h), symexp_of_pos h, sub_add_cancel,
    Real.log_exp]

theorem symexp_symlog_of_pos {x : ℝ} (h : 0 < x) : symexp (symlog x) = x := by
  rw [symexp_of_pos (symlog_pos_of_pos h), symlog_of_pos h,
    Real.exp_log (by linarith), add_sub_cancel_right]

/-- C8: `symlog` and `symexp` are mutually inverse on every real input, and `symlog`
is odd-symmetric: for all `x`, `symlog (symexp x) = x`, `symexp (symlog x) = x`, and
`symlog (-x) = -symlog x` (exact arithmetic over `ℝ`). -/
theorem symlog_symexp_inverse_and_odd (x : ℝ) :
    symlog (symexp x) = x ∧ symexp (symlog x) = x ∧ symlog (-x) = -symlog x := by
  refine ⟨?_, ?_, symlog_neg_eq x⟩ <;>
  · rcases lt_trichotomy x 0 with h | h | h
    · have h' : 0 < -x := neg_pos.mpr h
      first
      | · rw [show x = -(-x) by ring, symexp_neg_eq, symlog_neg_eq,
            symlog_symexp_of_pos h']
      | · rw [show x = -(-x) by ring, symlog_neg_eq, symexp_neg_eq,
            symexp_symlog_of_pos h']
    · simp [h, symlog_zero, symexp_zero]
    · first
      | exact symlog_symexp_of_pos h
      | exact symexp_symlog_of_pos h

/-- C3: the world-model training loss equals the sum over the configured heads (image
and reward always, discount exactly when `pred_discount` is set) of the negated mean
log-likelihood of the batch data under that head, each scaled by its per-head
coefficient (`reward_scale`, `discount_scale`, and 1.0 for the image head, which has no
configured scale), plus the KL loss returned by the dynamics. -/
theorem modelLoss_eq_scaled_sum (cfg : WMConfig) (meanLike : String → ℝ) (klLoss : ℝ) :
    WorldModel.modelLoss cfg meanLike klLoss =
      -(meanLike "image") * 1 + -(meanLike "reward") * cfg.reward_scale
        + (if cfg.pred_discount then -(meanLike "discount") * cfg.discount_scale else 0)
        + klLoss := by
  rcases cfg with ⟨ot, rt, d, pd, rs, ds⟩
  unfold WorldModel.modelLoss WorldModel.headNames WorldModel.scalesGet
  cases pd <;> · simp; try ring

/-- C4 (evidence for the code bug): with an unrecognized observation-transform or
reward-transform name, `preprocess` does fail immediately and non-recoverably, but what
it raises is `TypeError: NotImplementedType object is not callable` — the result of
calling the non-callable constant `NotImplemented` — which names no configuration value
(the formatted message, which in the observation branch would anyway have interpolated
`reward_trans` rather than the offending `obs_trans`, is discarded before being
raised). A truthy `repeats` in `_imagine` produces the same fixed error, while the
non-None `repeats = 0` is falsy and does not fail. -/
theorem preprocess_imagine_notimplemented_is_typeerror (rt : String) (d : ℝ) (pd : Bool)
    (rs ds : ℝ) (obs : RawObs) :
    WorldModel.preprocess ⟨"quantize", rt, d, pd, rs, ds⟩ obs =
        Except.error (PyError.typeError "NotImplementedType object is not callable") ∧
      WorldModel.preprocess ⟨"normalize", "clip", d, pd, rs, ds⟩ obs =
        Except.error (PyError.typeError "NotImplementedType object is not callable") ∧
      (∀ {σ φ α : Type} (dyn : Dyn σ φ α) (ps pm : φ → α) (zf : φ) (start : σ) (h : ℕ),
        ImagBehavior.imagine dyn ps pm zf start h (some 1) =
          Except.error (PyError.typeError "NotImplementedType object is not callable")) ∧
      (∀ {σ φ α : Type} (dyn : Dyn σ φ α) (ps pm : φ → α) (zf : φ) (start : σ) (h : ℕ),
        ∃ out, ImagBehavior.imagine dyn ps pm zf start h (some 0) = Except.ok out) :=
  ⟨rfl, rfl, fun _ _ _ _ _ _ => rfl, fun _ _ _ _ _ _ => ⟨_, rfl⟩⟩

/-- C10: with `obs_trans = "identity"` — an accepted transform, for which `preprocess`
succeeds — and any recognized reward transform, `video_pred` fails with an
unbound-local-variable `NameError`: `truth` is assigned only in the "normalize" and
"symlog" branches, yet the final error computation references it. -/
theorem video_pred_unbound_truth_on_identity (rt : String)
    (hrt : rt = "tanh" ∨ rt = "identity" ∨ rt = "symlog")
    (d : ℝ) (pd : Bool) (rs ds : ℝ) (obs : RawObs) (model0 : ℝ) :
    (∃ p, WorldModel.preprocess ⟨"identity", rt, d, pd, rs, ds⟩ obs = Except.ok p) ∧
      WorldModel.video_pred ⟨"identity", rt, d, pd, rs, ds⟩ obs model0 =
        Except.error
          (PyError.nameError "local variable truth referenced before assignment") := by
  rcases hrt with h | h | h <;> subst h <;> exact ⟨⟨_, rfl⟩, rfl⟩

/-- Witness for C10 at a concrete configuration and batch. -/
theorem video_pred_unbound_truth_on_identity_witness :
    (∃ p, WorldModel.preprocess ⟨"identity", "tanh", 1, false, 1, 1⟩ ⟨0, 0, none⟩ =
        Except.ok p) ∧
      WorldModel.video_pred ⟨"identity", "tanh", 1, false, 1, 1⟩ ⟨0, 0, none⟩ 0 =
        Except.error
          (PyError.nameError "local variable truth referenced before assignment") :=
  video_pred_unbound_truth_on_identity "tanh" (Or.inl rfl) 1 false 1 1 ⟨0, 0, none⟩ 0

theorem static_scan_eq_map_range {γ : Type} (f : γ → γ) (n : ℕ) (init : γ) :
    static_scan f n init = (List.range n).map (fun i => f^[i + 1] init) := by
  induction n generalizing init with
  | zero => rfl
  | succ n ih =>
    rw [static_scan, ih (f init), List.range_succ_eq_map, List.map_cons, List.map_map]
    rfl

theorem cons_dropLast_map_range_succ {γ : Type} (g : ℕ → γ) (m : ℕ) :
    g 0 :: ((List.range (m + 1)).map (fun i => g (i + 1))).dropLast =
      (List.range (m + 1)).map g := by
  conv_lhs =>
    rw [List.range_succ, List.map_append, List.map_singleton, List.dropLast_concat]
  rw [List.range_succ_eq_map, List.map_cons, List.map_map]
  rfl

/-- One imagination step of `_imagine` as a carry transformer; only the state component
of the carry is read. -/
def imagineStep {σ φ α : Type} (dyn : Dyn σ φ α) (policySample : φ → α) :
    σ × φ × α → σ × φ × α := fun prev =>
  let state := prev.1
  let feat := dyn.get_feat state
  let action := policySample feat
  (dyn.img_step state action, feat, action)

theorem imagineStep_iterate {σ φ α : Type} (dyn : Dyn σ φ α) (ps : φ → α)
    (p : σ × φ × α) (k : ℕ) :
    (imagineStep dyn ps)^[k + 1] p =
      (ImagBehavior.rolloutState dyn ps p.1 (k + 1),
        dyn.get_feat (ImagBehavior.rolloutState dyn ps p.1 k),
        ps (dyn.get_feat (ImagBehavior.rolloutState dyn ps p.1 k))) := by
  induction k with
  | zero =>
    simp [Function.iterate_one, imagineStep, ImagBehavior.rolloutState]
  | succ k ih =>
    rw [Function.iterate_succ_apply', ih]
    simp [imagineStep, ImagBehavior.rolloutState]

theorem imagine_eq_rollout {σ φ α : Type} (dyn : Dyn σ φ α) (ps pm : φ → α) (zf : φ)
    (start : σ) (m : ℕ) :
    ImagBehavior.imagine dyn ps pm zf start (m + 1) none =
      Except.ok
        ((List.range (m + 1)).map
            (fun i => dyn.get_feat (ImagBehavior.rolloutState dyn ps start i)),
          (List.range (m + 1)).map (fun i => ImagBehavior.rolloutState dyn ps start i),
          (List.range (m + 1)).map
            (fun i => ps (dyn.get_feat (ImagBehavior.rolloutState dyn ps start i)))) := by
  have hscan :
      static_scan (imagineStep dyn ps) (m + 1) (start, zf, pm zf) =
        (List.range (m + 1)).map
          (fun i =>
            (ImagBehavior.rolloutState dyn ps start (i + 1),
              dyn.get_feat (ImagBehavior.rolloutState dyn ps start i),
              ps (dyn.get_feat (ImagBehavior.rolloutState dyn ps start i)))) := by
    rw [static_scan_eq_map_range]
    exact List.map_congr_left fun i _ => imagineStep_iterate dyn ps _ i
  show Except.ok _ = _
  rw [show (fun prev : σ × φ × α =>
      (dyn.img_step prev.1 (ps (dyn.get_feat prev.1)), dyn.get_feat prev.1,
        ps (dyn.get_feat prev.1))) = imagineStep dyn ps from rfl]
  rw [hscan, List.map_map, List.map_map, List.map_map]
  refine congrArg _ (congrArg₂ _ rfl (congrArg₂ _ ?_ rfl))
  simpa [Function.comp_def] using
    cons_dropLast_map_range_succ (fun i => ImagBehavior.rolloutState dyn ps start i) m

/-- C1 (counterexample to the stated lengths): at `horizon = 1` with a one-state
dynamics, `_imagine` returns feature/state/action sequences of length 1, not
`horizon + 1 = 2`. -/
theorem imagine_length_counterexample :
    ∃ feats states actions,
      ImagBehavior.imagine (⟨fun s _ => s, fun s => s⟩ : Dyn ℚ ℚ ℚ) id id 0 0 1 none =
          Except.ok (feats, states, actions) ∧
        feats.length = 1 ∧ states.length = 1 ∧ actions.length = 1 ∧
        ¬(states.length = 1 + 1) :=
  ⟨_, _, _, rfl, rfl, rfl, rfl, by decide⟩

/-- C1 (amended): for every starting state and horizon `h ≥ 1` (and `repeats = None`),
`_imagine` returns feature, state and action sequences of length `h` each — one entry
per step, not `h + 1` — where `states[0]` is exactly the (flattened) initial state
passed in, `feats[t]` is the feature of `states[t]`, `actions[t]` is the action sampled
at `feats[t]`, and for every `t` with `t + 1 < h`, `states[t+1]` is the prior-dynamics
successor of `states[t]` under `actions[t]`. -/
theorem imagine_rollout_structure {σ φ α : Type} (dyn : Dyn σ φ α) (ps pm : φ → α)
    (zf : φ) (start : σ) (h : ℕ) (hh : 1 ≤ h) :
    ∃ feats states actions,
      ImagBehavior.imagine dyn ps pm zf start h none =
          Except.ok (feats, states, actions) ∧
        feats.length = h ∧ states.length = h ∧ actions.length = h ∧
        states.get? 0 = some start ∧
        (∀ t s, t < h → states.get? t = some s →
          feats.get? t = some (dyn.get_feat s) ∧
            actions.get? t = some (ps (dyn.get_feat s))) ∧
        (∀ t s a, t + 1 < h → states.get? t = some s → actions.get? t = some a →
          states.get? (t + 1) = some (dyn.img_step s a)) := by
  obtain ⟨m, rfl⟩ : ∃ m, h = m + 1 := ⟨h - 1, (Nat.succ_pred_eq_of_pos hh).symm⟩
  refine ⟨_, _, _, imagine_eq_rollout dyn ps pm zf start m, by simp, by simp, by simp,
    ?_, ?_, ?_⟩
  · rw [List.get?_map, List.get?_range (Nat.succ_pos m)]
    rfl
  · intro t s ht hs
    rw [List.get?_map, List.get?_range ht] at hs ⊢
    rw [List.get?_map, List.get?_range ht]
    obtain rfl : ImagBehavior.rolloutState dyn ps start t = s := by
      simpa using hs
    exact ⟨rfl, rfl⟩
  · intro t s a ht hs ha
    rw [List.get?_map, List.get?_range (Nat.lt_of_succ_lt ht)] at hs
    rw [List.get?_map, List.get?_range (Nat.lt_of_succ_lt ht)] at ha
    rw [List.get?_map, List.get?_range ht]
    obtain rfl : ImagBehavior.rolloutState dyn ps start t = s := by simpa using hs
    obtain rfl :
        ps (dyn.get_feat (ImagBehavior.rolloutState dyn ps start t)) = a := by
      simpa using ha
    rfl

/-- Witness for C1 (amended) at a concrete dynamics, policy and horizon. -/
theorem imagine_rollout_structure_witness :
    ∃ feats states actions,
      ImagBehavior.imagine (⟨fun s a => s + a, fun s => s⟩ : Dyn ℚ ℚ ℚ) id id 0 3 2
            none =
          Except.ok (feats, states, actions) ∧
        feats.length = 2 ∧ states.length = 2 ∧ actions.length = 2 ∧
        states.get? 0 = some 3 ∧
        (∀ t s, t < 2 → states.get? t = some s →
          feats.get? t = some s ∧ actions.get? t = some (id s)) ∧
        (∀ t s a, t + 1 < 2 → states.get? t = some s → actions.get? t = some a →
          states.get? (t + 1) = some (s + a)) :=
  imagine_rollout_structure (⟨fun s a => s + a, fun s => s⟩ : Dyn ℚ ℚ ℚ) id id 0 3 2
    (by decide)

theorem headD_eq_append_getD {γ : Type} (l : List γ) (b x : γ) :
    l.headD b = (l ++ [b]).getD 0 x := by
  cases l <;> rfl

theorem lambdaReturnAux_length {α : Type} [CommRing α] (lam b : α)
    (L : List (α × α × α)) : (lambdaReturnAux lam b L).length = L.length := by
  induction L with
  | nil => rfl
  | cons x rest ih =>
    obtain ⟨r, d, nv⟩ := x
    simp [lambdaReturnAux, ih]

theorem lambdaReturnAux_spec {α : Type} [CommRing α] (lam b : α) :
    ∀ (L : List (α × α × α)) (t : ℕ), t < L.length →
      (lambdaReturnAux lam b L ++ [b]).getD t 0 =
        (L.getD t (0, 0, 0)).1 + (L.getD t (0, 0, 0)).2.1 *
          ((1 - lam) * (L.getD t (0, 0, 0)).2.2 +
            lam * (lambdaReturnAux lam b L ++ [b]).getD (t + 1) 0) := by
  intro L
  induction L with
  | nil => intro t ht; exact absurd ht (Nat.not_lt_zero t)
  | cons x rest ih =>
    obtain ⟨r, d, nv⟩ := x
    intro t ht
    cases t with
    | zero =>
      rw [lambdaReturnAux]
      simp only [List.cons_append, List.getD_cons_zero, List.getD_cons_succ]
      rw [headD_eq_append_getD (lambdaReturnAux lam b rest) b 0]
    | succ t =>
      rw [lambdaReturnAux]
      simp only [List.cons_append, List.getD_cons_succ]
      exact ih t (Nat.lt_of_succ_lt_succ ht)

theorem dropLast_map_range {γ : Type} (g : ℕ → γ) (n : ℕ) :
    ((List.range (n + 1)).map g).dropLast = (List.range n).map g := by
  rw [List.range_succ, List.map_append, List.map_singleton, List.dropLast_concat]

theorem getLastD_map_range {γ : Type} (g : ℕ → γ) (n : ℕ) (x : γ) :
    ((List.range (n + 1)).map g).getLastD x = g n := by
  rw [List.range_succ, List.map_append, List.map_singleton]
  induction ((List.range n).map g) with
  | nil => rfl
  | cons y l ih =>
    rw [List.cons_append]
    cases l with
    | nil => rfl
    | cons z l => simpa using ih

theorem drop_one_map_range_append {γ : Type} (g : ℕ → γ) (m : ℕ) :
    ((List.range (m + 1)).map g).drop 1 ++ [g (m + 1)] =
      (List.range (m + 1)).map (fun i => g (i + 1)) := by
  conv_lhs => rw [List.range_succ_eq_map, List.map_cons]
  rw [List.drop_succ_cons, List.drop_zero, List.map_map, List.range_succ,
    List.map_append, List.map_singleton]
  rfl

theorem getD_map_range {γ : Type} (g : ℕ → γ) {n t : ℕ} (h : t < n) (x : γ) :
    ((List.range n).map g).getD t x = g t := by
  rw [List.getD_eq_getD_get?, List.get?_map, List.get?_range h]
  rfl

/-- C2: the target computed by `ImagBehavior._compute_target` on per-timestep input
sequences of length `H + 1` satisfies the backward λ-return recursion
`return[t] = reward[t] + discount[t] * ((1-λ)*value[t+1] + λ*return[t+1])` with
`return[H] = bootstrap = value[H]`, producing a sequence of length `H`; in particular
for `H = 1` the single entry is exactly `reward[0] + discount[0] * bootstrap`, for
every reward, discount, value and λ. -/
theorem compute_target_lambda_return_recursion {α : Type} [CommRing α] (H : ℕ)
    (hH : 1 ≤ H) (r v d : ℕ → α) (lam : α) :
    ∃ target : List α,
      (ImagBehavior.compute_target ((List.range (H + 1)).map r)
          ((List.range (H + 1)).map v) ((List.range (H + 1)).map d) lam).1 = target ∧
      target.length = H ∧
      (∀ t, t < H →
        (target ++ [v H]).getD t 0 =
          r t + d t *
            ((1 - lam) * v (t + 1) + lam * (target ++ [v H]).getD (t + 1) 0)) ∧
      (target ++ [v H]).getD H 0 = v H ∧
      (H = 1 → target = [r 0 + d 0 * v 1]) := by
  obtain ⟨m, rfl⟩ : ∃ m, H = m + 1 := ⟨H - 1, (Nat.succ_pred_eq_of_pos hH).symm⟩
  have hzip :
      lambda_return ((List.range (m + 1 + 1)).map r).dropLast
          ((List.range (m + 1 + 1)).map v).dropLast
          ((List.range (m + 1 + 1)).map d).dropLast
          (((List.range (m + 1 + 1)).map v).getLastD 0) lam =
        lambdaReturnAux lam (v (m + 1))
          ((List.range (m + 1)).map (fun t => (r t, d t, v (t + 1)))) := by
    rw [dropLast_map_range r, dropLast_map_range v, dropLast_map_range d,
      getLastD_map_range v, lambda_return, drop_one_map_range_append v,
      List.zip_map', List.zip_map']
  set L := (List.range (m + 1)).map (fun t => (r t, d t, v (t + 1))) with hL
  have hCT : (ImagBehavior.compute_target ((List.range (m + 1 + 1)).map r)
      ((List.range (m + 1 + 1)).map v) ((List.range (m + 1 + 1)).map d) lam).1 =
      lambdaReturnAux lam (v (m + 1)) L := hzip
  refine ⟨_, rfl, ?_, ?_, ?_, ?_⟩
  · rw [hCT, lambdaReturnAux_length, hL, List.length_map, List.length_range]
  · intro t ht
    rw [hCT]
    have hlen : t < L.length := by
      rw [hL, List.length_map, List.length_range]; exact ht
    rw [lambdaReturnAux_spec lam (v (m + 1)) L t hlen, hL, getD_map_range _ ht]
  · rw [hCT]
    have hlen : (lambdaReturnAux lam (v (m + 1)) L).length = m + 1 := by
      rw [lambdaReturnAux_length, hL, List.length_map, List.length_range]
    have hcat := List.get?_concat_length (lambdaReturnAux lam (v (m + 1)) L) (v (m + 1))
    rw [hlen] at hcat
    rw [List.getD_eq_getD_get?, hcat]
    rfl
  · intro h1
    obtain rfl : m = 0 := by omega
    rw [hCT, hL]
    show [r 0 + d 0 * ((1 - lam) * v 1 + lam *
      (lambdaReturnAux lam (v 1) []).headD (v 1))] = [r 0 + d 0 * v 1]
    congr 1
    show r 0 + d 0 * ((1 - lam) * v 1 + lam * v 1) = r 0 + d 0 * v 1
    ring

/-- Witness for C2 at `H = 1` over `ℚ` with concrete reward, value, discount and λ:
the single target entry is exactly `reward[0] + discount[0] * bootstrap`. -/
theorem compute_target_lambda_return_recursion_witness :
    (ImagBehavior.compute_target ((List.range 2).map (fun t : ℕ => (t : ℚ) + 2))
        ((List.range 2).map (fun t : ℕ => (t : ℚ) + 5))
        ((List.range 2).map (fun t : ℕ => (t : ℚ) / 2)) (1 / 3)).1 =
      [((0 : ℕ) : ℚ) + 2 + ((0 : ℕ) : ℚ) / 2 * (((1 : ℕ) : ℚ) + 5)] := by
  obtain ⟨target, heq, -, -, -, hone⟩ :=
    compute_target_lambda_return_recursion (α := ℚ) 1 (by decide)
      (fun t => (t : ℚ) + 2) (fun t => (t : ℚ) + 5) (fun t => (t : ℚ) / 2) (1 / 3)
  rw [heq, hone rfl]

theorem cumprodFrom_map_val {α : Type} [CommRing α] (l : List (Dual α)) :
    ∀ acc : Dual α, (cumprodFrom acc l).map Dual.val =
      cumprodFrom acc.val (l.map Dual.val) := by
  induction l with
  | nil => intro acc; rfl
  | cons y ys ih =>
    intro acc
    show (acc * y).val :: (cumprodFrom (acc * y) ys).map Dual.val = _
    rw [ih (acc * y)]
    rfl

theorem cumprod_map_val {α : Type} [CommRing α] (l : List (Dual α)) :
    (cumprod l).map Dual.val = cumprod (l.map Dual.val) := by
  cases l with
  | nil => rfl
  | cons y ys =>
    show y.val :: (cumprodFrom y ys).map Dual.val = _
    rw [cumprodFrom_map_val ys y]
    rfl

theorem Dual.val_one {α : Type} [One α] [Zero α] : (1 : Dual α).val = 1 := rfl

theorem imag_weights_map_val {α : Type} [CommRing α] (l : List (Dual α)) :
    (imag_weights l).map Dual.val = imag_weights (l.map Dual.val) := by
  unfold imag_weights
  rw [cumprod_map_val]
  congr 1
  simp only [List.map_append, ← List.map_take, List.map_map, List.map_dropLast,
    Function.comp_def, Dual.val_one]

theorem cumprodFrom_length {β : Type} [Mul β] (l : List β) :
    ∀ acc : β, (cumprodFrom acc l).length = l.length := by
  induction l with
  | nil => intro acc; rfl
  | cons y ys ih =>
    intro acc
    show (cumprodFrom (acc * y) ys).length + 1 = ys.length + 1
    rw [ih (acc * y)]

theorem cumprod_length {β : Type} [Mul β] (l : List β) :
    (cumprod l).length = l.length := by
  cases l with
  | nil => rfl
  | cons y ys =>
    show (cumprodFrom y ys).length + 1 = ys.length + 1
    rw [cumprodFrom_length ys y]

theorem imag_weights_length {β : Type} [Mul β] [One β] (ds : List β) :
    (imag_weights ds).length = ds.length := by
  unfold imag_weights
  rw [cumprod_length, List.length_append, List.length_map, List.length_take,
    List.length_dropLast]
  omega

theorem cumprodFrom_get? {α : Type} [CommRing α] (l : List α) :
    ∀ (acc : α) (t : ℕ), t < l.length →
      (cumprodFrom acc l).get? t = some (acc * (l.take (t + 1)).prod) := by
  induction l with
  | nil => intro acc t ht; exact absurd ht (Nat.not_lt_zero t)
  | cons y ys ih =>
    intro acc t ht
    cases t with
    | zero =>
      show some (acc * y) = some (acc * ((y :: ys).take 1).prod)
      simp
    | succ t =>
      show (cumprodFrom (acc * y) ys).get? t = _
      rw [ih (acc * y) t (Nat.lt_of_succ_lt_succ ht)]
      congr 1
      rw [List.take_succ_cons, List.prod_cons, mul_assoc]

theorem imag_weights_get? {α : Type} [CommRing α] (ds : List α) (t : ℕ)
    (ht : t < ds.length) :
    (imag_weights ds).get? t = some ((ds.take t).prod) := by
  cases ds with
  | nil => exact absurd ht (Nat.not_lt_zero t)
  | cons d0 rest =>
    cases t with
    | zero => rfl
    | succ t =>
      show (cumprodFrom 1 ((d0 :: rest).dropLast)).get? t =
        some (((d0 :: rest).take (t + 1)).prod)
      have hlen : t < ((d0 :: rest).dropLast).length := by
        rw [List.length_dropLast]
        exact Nat.lt_of_succ_lt_succ (by simpa using ht)
      rw [cumprodFrom_get? _ 1 t hlen, one_mul]
      congr 2
      rw [List.dropLast_eq_take, List.take_take]
      congr 1
      have ht2 : t + 1 ≤ rest.length := by
        have ht3 := ht
        simp only [List.length_cons] at ht3
        omega
      simp only [List.length_cons, Nat.add_sub_cancel]
      omega

theorem imag_weights_detached_get? {α : Type} [CommRing α] (dd : List (Dual α))
    (t : ℕ) (ht : t < dd.length) :
    (imag_weights_detached dd).get? t =
      some ⟨((dd.map Dual.val).take t).prod, 0⟩ := by
  have hlen2 : t < (dd.map Dual.val).length := by simpa using ht
  have hv := imag_weights_get? (dd.map Dual.val) t hlen2
  rw [← imag_weights_map_val, List.get?_map] at hv
  unfold imag_weights_detached
  rw [List.get?_map]
  cases hx : (imag_weights dd).get? t with
  | none => rw [hx] at hv; exact absurd hv (by simp)
  | some x =>
    rw [hx] at hv
    have hxv : x.val = ((dd.map Dual.val).take t).prod := by
      simpa using hv
    show some (Dual.detach x) = some (⟨((dd.map Dual.val).take t).prod, 0⟩ : Dual α)
    rw [Dual.detach, hxv]

/-- C6: for a discount sequence of autograd-tracked scalars, the loss weights returned
by `_compute_target` are (at value level) the detached dual-number weights; these have
`weights[0] = 1`, `weights[t] = discount[0] * ... * discount[t-1]` for every `t`
(the cumulative product of discounts shifted by one step), zero tangent at every entry
(detached from the gradient graph), and are monotonically non-increasing along the
horizon axis whenever every discount value lies in `(0, 1)`. -/
theorem compute_target_weights_shifted_cumprod {α : Type} [LinearOrderedField α]
    (n : ℕ) (dfun : ℕ → Dual α) :
    (∀ (r v : List α) (lam : α),
      (ImagBehavior.compute_target r v
          (((List.range n).map dfun).map Dual.val) lam).2 =
        (imag_weights_detached ((List.range n).map dfun)).map Dual.val) ∧
    (imag_weights_detached ((List.range n).map dfun)).length = n ∧
    (∀ t, t < n →
      (imag_weights_detached ((List.range n).map dfun)).get? t =
        some ⟨((List.range t).map (fun i => (dfun i).val)).prod, 0⟩) ∧
    ((∀ i, i < n → 0 < (dfun i).val ∧ (dfun i).val < 1) →
      ∀ t, t + 1 < n →
        ((imag_weights_detached ((List.range n).map dfun)).getD (t + 1) ⟨0, 0⟩).val ≤
          ((imag_weights_detached ((List.range n).map dfun)).getD t ⟨0, 0⟩).val) := by
  have hlen : ((List.range n).map dfun).length = n := by simp
  have hget : ∀ t, t < n →
      (imag_weights_detached ((List.range n).map dfun)).get? t =
        some ⟨((List.range t).map (fun i => (dfun i).val)).prod, 0⟩ := by
    intro t ht
    rw [imag_weights_detached_get? _ t (by simpa using ht), List.map_map,
      ← List.map_take, List.take_range, inf_eq_left.mpr (le_of_lt ht)]
    rfl
  refine ⟨?_, ?_, hget, ?_⟩
  · intro r v lam
    show imag_weights (((List.range n).map dfun).map Dual.val) = _
    rw [← imag_weights_map_val]
    unfold imag_weights_detached
    rw [List.map_map]
    rfl
  · unfold imag_weights_detached
    rw [List.length_map, imag_weights_length, hlen]
  · intro hbound t ht
    have h1 := hget t (Nat.lt_of_succ_lt ht)
    have h2 := hget (t + 1) ht
    rw [List.getD_eq_getD_get?, List.getD_eq_getD_get?, h1, h2]
    show (((List.range (t + 1)).map (fun i => (dfun i).val)).prod : α) ≤
      ((List.range t).map (fun i => (dfun i).val)).prod
    rw [List.prod_range_succ]
    have hpos : 0 < ((List.range t).map (fun i => (dfun i).val)).prod := by
      apply List.prod_pos
      intro a ha
      obtain ⟨i, hi, rfl⟩ := List.mem_map.mp ha
      exact (hbound i (by
        have := List.mem_range.mp hi
        omega)).1
    have hlt : (dfun t).val ≤ 1 := (hbound t (by omega)).2.le
    calc ((List.range t).map (fun i => (dfun i).val)).prod * (dfun t).val
        ≤ ((List.range t).map (fun i => (dfun i).val)).prod * 1 :=
          mul_le_mul_of_nonneg_left hlt hpos.le
      _ = ((List.range t).map (fun i => (dfun i).val)).prod := mul_one _

/-- Witness for C6 over `ℚ` with three tracked discounts of value 1/2 and tangent 1. -/
theorem compute_target_weights_shifted_cumprod_witness :
    (imag_weights_detached
        ((List.range 3).map (fun _ => (⟨1 / 2, 1⟩ : Dual ℚ)))).length = 3 ∧
      (imag_weights_detached
          ((List.range 3).map (fun _ => (⟨1 / 2, 1⟩ : Dual ℚ)))).get? 2 =
        some ⟨((List.range 2).map (fun _ => ((1 : ℚ) / 2))).prod, 0⟩ ∧
      ((imag_weights_detached
            ((List.range 3).map (fun _ => (⟨1 / 2, 1⟩ : Dual ℚ)))).getD 2
          ⟨0, 0⟩).val ≤
        ((imag_weights_detached
            ((List.range 3).map (fun _ => (⟨1 / 2, 1⟩ : Dual ℚ)))).getD 1
          ⟨0, 0⟩).val := by
  obtain ⟨hct, hlen, hget, hmono⟩ :=
    compute_target_weights_shifted_cumprod (α := ℚ) 3 (fun _ => ⟨1 / 2, 1⟩)
  exact ⟨hlen, hget 2 (by decide),
    hmono (fun i _ => ⟨one_half_pos, one_half_lt_one⟩) 1 (by decide)⟩

theorem zip_map_mix_zero {α : Type} [CommRing α] (l : List α) :
    ∀ s : List α, l.length = s.length →
      (l.zip s).map (fun p => (0 : α) * p.1 + (1 - 0) * p.2) = s := by
  induction l with
  | nil =>
    intro s h
    rw [List.length_nil] at h
    rw [(List.length_eq_zero.mp h.symm)]
    rfl
  | cons x xs ih =>
    intro s h
    cases s with
    | nil => exact absurd h (by simp)
    | cons y ys =>
      simp only [List.zip_cons_cons, List.map_cons]
      rw [ih ys (by simpa using h)]
      congr 1
      ring

theorem zip_map_mix_one {α : Type} [CommRing α] (l : List α) :
    ∀ s : List α, l.length = s.length →
      (l.zip s).map (fun p => (1 : α) * p.1 + (1 - 1) * p.2) = l := by
  induction l with
  | nil => intro s h; rfl
  | cons x xs ih =>
    intro s h
    cases s with
    | nil => exact absurd h (by simp)
    | cons y ys =>
      simp only [List.zip_cons_cons, List.map_cons]
      rw [ih ys (by simpa using h)]
      congr 1
      ring

theorem run_slow_updates_updates {α : Type} [CommRing α] (cfg : SlowCfg α)
    (hen : cfg.enabled = true) (live : ℕ → List α) (s0 : List α) :
    ∀ k, (ImagBehavior.run_slow_updates cfg live k ⟨0, s0⟩).updates = k := by
  intro k
  induction k with
  | zero => rfl
  | succ k ih =>
    show (ImagBehavior.update_slow_target cfg (live k) _).updates = k + 1
    rw [ImagBehavior.update_slow_target, hen, if_pos rfl]
    exact congrArg (· + 1) ih

/-- C5: with slow targets enabled (and `slow_target_update ≥ 1`),
`_update_slow_target` increments its call counter on every call; the parameter mix
`d := mix * live + (1 - mix) * slow` is performed exactly on the calls whose
pre-increment counter is a multiple of `slow_target_update`, and otherwise the slow
parameters are untouched; consequently with `slow_target_fraction = 0` the slow
parameters equal their initial (deep-copied) values after any number of calls, and
with `slow_target_fraction = 1` and constant live critic parameters `p`, after exactly
`slow_target_update` calls the slow parameters equal the live parameters exactly. -/
theorem update_slow_target_spec {α : Type} [CommRing α] (cfg : SlowCfg α)
    (hen : cfg.enabled = true) (hn : 1 ≤ cfg.slow_target_update)
    (live : ℕ → List α) (s0 : List α) (hlen : ∀ k, (live k).length = s0.length) :
    (∀ k, (ImagBehavior.run_slow_updates cfg live k ⟨0, s0⟩).updates = k) ∧
    (∀ k, (ImagBehavior.run_slow_updates cfg live (k + 1) ⟨0, s0⟩).slow =
      if k % cfg.slow_target_update = 0 then
        ((live k).zip (ImagBehavior.run_slow_updates cfg live k ⟨0, s0⟩).slow).map
          (fun p => cfg.slow_target_fraction * p.1 +
            (1 - cfg.slow_target_fraction) * p.2)
      else (ImagBehavior.run_slow_updates cfg live k ⟨0, s0⟩).slow) ∧
    (cfg.slow_target_fraction = 0 → ∀ k,
      (ImagBehavior.run_slow_updates cfg live k ⟨0, s0⟩).slow = s0) ∧
    (cfg.slow_target_fraction = 1 → ∀ p, (∀ k, live k = p) →
      (ImagBehavior.run_slow_updates cfg live cfg.slow_target_update
        ⟨0, s0⟩).slow = p) := by
  have hcount := run_slow_updates_updates cfg hen live s0
  have hstep : ∀ k,
      (ImagBehavior.run_slow_updates cfg live (k + 1) ⟨0, s0⟩).slow =
        if k % cfg.slow_target_update = 0 then
          ((live k).zip (ImagBehavior.run_slow_updates cfg live k ⟨0, s0⟩).slow).map
            (fun p => cfg.slow_target_fraction * p.1 +
              (1 - cfg.slow_target_fraction) * p.2)
        else (ImagBehavior.run_slow_updates cfg live k ⟨0, s0⟩).slow := by
    intro k
    show (ImagBehavior.update_slow_target cfg (live k) _).slow = _
    rw [ImagBehavior.update_slow_target, hen, if_pos rfl]
    rw [show (ImagBehavior.run_slow_updates cfg live k ⟨0, s0⟩).updates = k from
      hcount k]
  refine ⟨hcount, hstep, ?_, ?_⟩
  · intro hmix k
    induction k with
    | zero => rfl
    | succ k ih =>
      rw [hstep k, ih]
      by_cases hmod : k % cfg.slow_target_update = 0
      · rw [if_pos hmod, hmix, zip_map_mix_zero (live k) s0 (hlen k)]
      · rw [if_neg hmod]
  · intro hmix p hconst
    have key : ∀ k, 1 ≤ k →
        (ImagBehavior.run_slow_updates cfg live k ⟨0, s0⟩).slow = p := by
      intro k
      induction k with
      | zero => intro h; exact absurd h (by decide)
      | succ k ih =>
        intro _
        rw [hstep k]
        cases Nat.eq_zero_or_pos k with
        | inl hk0 =>
          subst hk0
          rw [if_pos (Nat.zero_mod _), hmix, hconst 0,
            show (ImagBehavior.run_slow_updates cfg live 0 ⟨0, s0⟩).slow = s0
              from rfl,
            zip_map_mix_one p s0 (by rw [← hconst 0]; exact hlen 0)]
        | inr hk1 =>
          by_cases hmod : k % cfg.slow_target_update = 0
          · rw [if_pos hmod, hmix, hconst k, ih hk1,
              zip_map_mix_one p p rfl]
          · rw [if_neg hmod]
            exact ih hk1
    exact key cfg.slow_target_update hn

/-- Witness for C5 over `ℚ`: `slow_target_update = 2`, initial slow parameters
`[1, 2]`, constant live parameters `[3, 4]`, for fractions 0 and 1. -/
theorem update_slow_target_spec_witness :
    (ImagBehavior.run_slow_updates (⟨true, 2, 0⟩ : SlowCfg ℚ) (fun _ => [3, 4]) 5
        ⟨0, [1, 2]⟩).updates = 5 ∧
      (ImagBehavior.run_slow_updates (⟨true, 2, 0⟩ : SlowCfg ℚ) (fun _ => [3, 4]) 5
          ⟨0, [1, 2]⟩).slow = [1, 2] ∧
      (ImagBehavior.run_slow_updates (⟨true, 2, 1⟩ : SlowCfg ℚ) (fun _ => [3, 4]) 2
          ⟨0, [1, 2]⟩).slow = [3, 4] := by
  obtain ⟨hc0, -, hz0, -⟩ :=
    update_slow_target_spec (⟨true, 2, 0⟩ : SlowCfg ℚ) rfl (by decide)
      (fun _ => [3, 4]) [1, 2] (fun _ => rfl)
  obtain ⟨-, -, -, ho1⟩ :=
    update_slow_target_spec (⟨true, 2, 1⟩ : SlowCfg ℚ) rfl (by decide)
      (fun _ => [3, 4]) [1, 2] (fun _ => rfl)
  exact ⟨hc0 5, hz0 rfl 5, ho1 rfl [3, 4] (fun _ => rfl)⟩

/-- C9: RewardEMA normalization never amplifies its input: the divisor is the
(post-update) running scale clipped below at 1, so each element of the returned tensor
has absolute value at most that of the corresponding element of `x`; and whenever the
running scale is at most 1 (e.g. while it remains at its zero initialization) the
output equals `x` exactly. -/
theorem rewardEMACall_no_amplify {α : Type} [LinearOrderedField α] [FloorRing α]
    (alpha scale : α) (x : List α) :
    (∀ t, t < x.length →
      |(rewardEMACall alpha scale x).2.getD t 0| ≤ |x.getD t 0|) ∧
    (rewardEMAUpdate alpha scale x ≤ 1 → (rewardEMACall alpha scale x).2 = x) := by
  constructor
  · intro t ht
    show |(x.map (fun v => v / max (rewardEMAUpdate alpha scale x) 1)).getD t 0| ≤ _
    rw [List.getD_eq_getD_get?, List.get?_map, List.getD_eq_getD_get?]
    cases hx : x.get? t with
    | none => simp
    | some v =>
      show |v / max (rewardEMAUpdate alpha scale x) 1| ≤ |v|
      have hd : (1 : α) ≤ max (rewardEMAUpdate alpha scale x) 1 := le_max_right _ _
      rw [abs_div, abs_of_pos (lt_of_lt_of_le one_pos hd)]
      exact div_le_self (abs_nonneg v) hd
  · intro hle
    show x.map (fun v => v / max (rewardEMAUpdate alpha scale x) 1) = x
    rw [max_eq_right hle]
    simp

theorem torchQuantile_all_eq {α : Type} [LinearOrderedField α] [FloorRing α]
    (l : List α) (c : α) (hne : 1 ≤ l.length) (hall : ∀ y ∈ l, y = c)
    (q : α) (hq1 : q ≤ 1) : torchQuantile l q = c := by
  unfold torchQuantile
  dsimp only
  set s := l.insertionSort (fun a b => a ≤ b) with hs
  have hslen : s.length = l.length := List.length_insertionSort _ _
  have hsall : ∀ y ∈ s, y = c := fun y hy =>
    hall y ((List.perm_insertionSort _ l).mem_iff.mp hy)
  have hcast : (0 : α) ≤ (s.length : α) - 1 := by
    rw [hslen]
    have : (1 : α) ≤ (l.length : α) := by exact_mod_cast hne
    linarith
  have hposle : q * ((s.length : α) - 1) ≤ (s.length : α) - 1 := by
    calc q * ((s.length : α) - 1) ≤ 1 * ((s.length : α) - 1) :=
          mul_le_mul_of_nonneg_right hq1 hcast
      _ = (s.length : α) - 1 := one_mul _
  have hfloor : ⌊q * ((s.length : α) - 1)⌋ ≤ (s.length : ℤ) - 1 := by
    calc ⌊q * ((s.length : α) - 1)⌋ ≤ ⌊(s.length : α) - 1⌋ :=
          Int.floor_le_floor hposle
      _ = (s.length : ℤ) - 1 := by
          rw [show ((s.length : α) - 1) = ((s.length : ℤ) : α) - ((1 : ℤ) : α) by
            push_cast; ring]
          rw [← Int.cast_sub, Int.floor_intCast]
  have hi : (⌊q * ((s.length : α) - 1)⌋).toNat < s.length := by
    have h1 : 1 ≤ s.length := by rw [hslen]; exact hne
    omega
  have hlo : s.getD (⌊q * ((s.length : α) - 1)⌋).toNat 0 = c := by
    rw [List.getD_eq_getElem _ _ hi]
    exact hsall _ (s.getElem_mem hi)
  have hhi : s.getD ((⌊q * ((s.length : α) - 1)⌋).toNat + 1)
      (s.getD (⌊q * ((s.length : α) - 1)⌋).toNat 0) = c := by
    by_cases h2 : (⌊q * ((s.length : α) - 1)⌋).toNat + 1 < s.length
    · rw [List.getD_eq_getElem _ _ h2]
      exact hsall _ (s.getElem_mem h2)
    · rw [List.getD_eq_default _ _ (Nat.le_of_not_lt h2), hlo]
  rw [hlo] at hhi
  rw [hlo, hhi, sub_self, mul_zero, add_zero]

theorem torchQuantile_singleton {α : Type} [LinearOrderedField α] [FloorRing α]
    (c q : α) : torchQuantile [c] q = c := by
  unfold torchQuantile
  simp [List.insertionSort, List.orderedInsert]

theorem rewardEMASpread_singleton {α : Type} [LinearOrderedField α] [FloorRing α]
    (c : α) : rewardEMASpread [c] = 0 := by
  rw [rewardEMASpread, torchQuantile_singleton, torchQuantile_singleton, sub_self]

theorem rewardEMASpread_replicate {α : Type} [LinearOrderedField α] [FloorRing α]
    (c : α) (n : ℕ) (hn : 1 ≤ n) : rewardEMASpread (List.replicate n c) = 0 := by
  have hlen : 1 ≤ (List.replicate n c).length := by
    rw [List.length_replicate]; exact hn
  have hall : ∀ y ∈ List.replicate n c, y = c := fun y hy =>
    List.eq_of_mem_replicate hy
  rw [rewardEMASpread,
    torchQuantile_all_eq _ c hlen hall _ (by norm_num),
    torchQuantile_all_eq _ c hlen hall _ (by norm_num), sub_self]

theorem rewardEMAScaleAfter_closed {α : Type} [LinearOrderedField α] [FloorRing α]
    (alpha s : α) (xs : ℕ → List α) (hs : ∀ k, rewardEMASpread (xs k) = s) :
    ∀ k, rewardEMAScaleAfter alpha xs k = s * (1 - (1 - alpha) ^ k) := by
  intro k
  induction k with
  | zero => simp [rewardEMAScaleAfter]
  | succ k ih =>
    show rewardEMAUpdate alpha (rewardEMAScaleAfter alpha xs k) (xs k) = _
    rw [rewardEMAUpdate, hs k, ih]
    ring

/-- C7: each RewardEMA call updates the persistent scale by
`scale' = alpha * (q95(x) - q05(x)) + (1 - alpha) * scale` on the flattened input;
hence, from the zero initialization, for an input stream of constant per-call quantile
spread `s` the scale after `k` calls is `s * (1 - (1 - alpha)^k)`, which converges to
`s` as the number of calls grows (given `0 < alpha < 1`); a literal constant input has
per-call spread 0, so on such a stream the scale stays 0 after any number of calls. -/
theorem rewardEMA_scale_converges {α : Type} [LinearOrderedField α] [FloorRing α]
    [Archimedean α] [TopologicalSpace α] [OrderTopology α]
    (alpha s : α) (xs : ℕ → List α) (ha0 : 0 < alpha) (ha1 : alpha < 1) :
    (∀ sc x, (rewardEMACall alpha sc x).1 =
      alpha * rewardEMASpread x + (1 - alpha) * sc) ∧
    ((∀ k, rewardEMASpread (xs k) = s) →
      (∀ k, rewardEMAScaleAfter alpha xs k = s * (1 - (1 - alpha) ^ k)) ∧
        Filter.Tendsto (rewardEMAScaleAfter alpha xs) Filter.atTop (nhds s)) ∧
    (∀ (c : α) (n : ℕ), 1 ≤ n → rewardEMASpread (List.replicate n c) = 0) ∧
    ((∀ k, ∃ n c, 1 ≤ n ∧ xs k = List.replicate n c) →
      ∀ k, rewardEMAScaleAfter alpha xs k = 0) := by
  refine ⟨fun sc x => rfl, ?_, fun c n hn => rewardEMASpread_replicate c n hn, ?_⟩
  · intro hs
    refine ⟨rewardEMAScaleAfter_closed alpha s xs hs, ?_⟩
    have hr0 : (0 : α) ≤ 1 - alpha := by linarith
    have hr1 : 1 - alpha < 1 := by linarith
    have hpow := tendsto_pow_atTop_nhds_zero_of_lt_one hr0 hr1
    have hmain : Filter.Tendsto (fun k => s * (1 - (1 - alpha) ^ k)) Filter.atTop
        (nhds (s * (1 - 0))) :=
      Filter.Tendsto.const_mul s (tendsto_const_nhds.sub hpow)
    rw [show s * (1 - 0) = s by ring] at hmain
    exact hmain.congr
      (fun k => (rewardEMAScaleAfter_closed alpha s xs hs k).symm)
  · intro hrep
    have hs0 : ∀ k, rewardEMASpread (xs k) = 0 := by
      intro k
      obtain ⟨n, c, hn, hx⟩ := hrep k
      rw [hx]
      exact rewardEMASpread_replicate c n hn
    intro k
    rw [rewardEMAScaleAfter_closed alpha 0 xs hs0 k, zero_mul]

/-- Witness for C7 over `ℚ`: `alpha = 1/2` and the constant input stream `[3]`. -/
theorem rewardEMA_scale_converges_witness :
    Filter.Tendsto (rewardEMAScaleAfter (1 / 2 : ℚ) (fun _ => [3])) Filter.atTop
        (nhds 0) ∧
      ∀ k, rewardEMAScaleAfter (1 / 2 : ℚ) (fun _ => [3]) k = 0 := by
  obtain ⟨-, h1, -, h3⟩ :=
    rewardEMA_scale_converges (α := ℚ) (1 / 2) 0 (fun _ => [3]) one_half_pos
      one_half_lt_one
  exact ⟨(h1 (fun k => rewardEMASpread_singleton 3)).2,
    h3 (fun k => ⟨1, 3, le_refl 1, rfl⟩)⟩

/-- Witness for C9 over `ℚ`: input `[5]` with zero-initialized scale and
`alpha = 1/2`. -/
theorem rewardEMACall_no_amplify_witness :
    |(rewardEMACall (1 / 2 : ℚ) 0 [5]).2.getD 0 0| ≤ |[(5 : ℚ)].getD 0 0| ∧
      (rewardEMACall (1 / 2 : ℚ) 0 [5]).2 = [5] := by
  obtain ⟨h1, h2⟩ := rewardEMACall_no_amplify (1 / 2 : ℚ) 0 [5]
  refine ⟨h1 0 (by decide), h2 ?_⟩
  rw [rewardEMAUpdate, rewardEMASpread_singleton]
  simp

end DreamerV3
